import Mathlib

/-!
Shallow embedding of `src/command/client/search/cursor.rs` (the text-editing
cursor of the search input).

The buffer is modelled as a `List Char`; byte offsets are `Nat` computed from
the UTF-8 width of each character (`Char.utf8Size`), matching Rust's
`String`/`str` byte indexing.  Rust's `source.chars().nth(i)` is `List.get?`,
`source.len()` is the total UTF-8 byte length, and `source.is_char_boundary`
is `isCharBoundary` below.  Every operation that can panic in Rust
(`Option::unwrap` on `None`, `String::insert` / `String::remove` /
`String::replace_range` at an offset that is not a character boundary)
returns `Option` here, `none` standing for the panic.
-/

namespace Atuin

/-- Rust `char::is_whitespace`: the Unicode `White_Space` property,
written out as the explicit code-point set. -/
def rustIsWhitespace (c : Char) : Bool :=
  let n := c.toNat
  (n == 0x20) || (Nat.ble 0x09 n && Nat.ble n 0x0D) || (n == 0x85) ||
  (n == 0xA0) || (n == 0x1680) || (Nat.ble 0x2000 n && Nat.ble n 0x200A) ||
  (n == 0x2028) || (n == 0x2029) || (n == 0x202F) || (n == 0x205F) ||
  (n == 0x3000)

/-- `static WORD_SEPARATORS: &str = "./\\()\"'-:,.;<>~!@#$%^&*|+=[]{}`~?"`,
as the list of its characters (0x60 is the backquote, 0x7b/0x7d the braces,
0x27 the single quote, 0x22 the double quote). -/
def WORD_SEPARATORS : List Char :=
  ['.', '/', '\\', '(', ')', Char.ofNat 0x22, Char.ofNat 0x27, '-', ':',
   ',', '.', ';', '<', '>', '~', '!', '@', '#', '$', '%', Char.ofNat 0x5e,
   '&', '*', '|', '+', '=', '[', ']', Char.ofNat 0x7b, Char.ofNat 0x7d,
   Char.ofNat 0x60, '~', '?']

/-- `fn is_word_boundary(c: char, next_c: char) -> bool`. -/
def is_word_boundary (c next_c : Char) : Bool :=
  (rustIsWhitespace c && !rustIsWhitespace next_c)
    || (!rustIsWhitespace c && rustIsWhitespace next_c)
    || (WORD_SEPARATORS.contains c && !WORD_SEPARATORS.contains next_c)
    || (!WORD_SEPARATORS.contains c && WORD_SEPARATORS.contains next_c)

/-- `source.len()`: the UTF-8 byte length of the buffer. -/
def byteLen : List Char → Nat
  | [] => 0
  | c :: cs => c.utf8Size + byteLen cs

/-- Rust `str::is_char_boundary(i)`: `i` is 0, the total byte length, or the
byte offset at which some character's encoding starts. -/
def isCharBoundary : List Char → Nat → Bool
  | _, 0 => true
  | [], _ + 1 => false
  | c :: cs, i + 1 =>
    if i + 1 < c.utf8Size then false else isCharBoundary cs (i + 1 - c.utf8Size)

/-- `(lo..lo+n).find(|&i| is_word_boundary(chars().nth(i).unwrap(), chars().nth(i+1).unwrap()))`.
Outer `none` = a panic (`unwrap` of a missing character); `some none` = range
exhausted without a match; `some (some i)` = first match at `i`. -/
def scanBoundary (s : List Char) : Nat → Nat → Option (Option Nat)
  | _, 0 => some none
  | lo, n + 1 =>
    match s.get? lo, s.get? (lo + 1) with
    | some c, some c2 =>
      if is_word_boundary c c2 then some (some lo) else scanBoundary s (lo + 1) n
    | _, _ => none

/-- `(lo..lo+n).find(|&i| !chars().nth(i).unwrap().is_whitespace())`. -/
def scanNonWs (s : List Char) : Nat → Nat → Option (Option Nat)
  | _, 0 => some none
  | lo, n + 1 =>
    match s.get? lo with
    | some c => if rustIsWhitespace c then scanNonWs s (lo + 1) n else some (some lo)
    | none => none

/-- `(1..=j).rev().find(|&i| !chars().nth(i).unwrap().is_whitespace())`:
the descending scan of `get_prev_word_pos`'s first phase, checking positions
`j, j-1, ..., 1`. -/
def scanNonWsDown (s : List Char) : Nat → Option (Option Nat)
  | 0 => some none
  | i + 1 =>
    match s.get? (i + 1) with
    | some c => if rustIsWhitespace c then scanNonWsDown s i else some (some (i + 1))
    | none => none

/-- `(1..=j).rev().find(|&i| is_word_boundary(nth(i-1).unwrap(), nth(i).unwrap()))`:
the descending scan of `get_prev_word_pos`'s second phase. -/
def scanBoundaryDown (s : List Char) : Nat → Option (Option Nat)
  | 0 => some none
  | i + 1 =>
    match s.get? i, s.get? (i + 1) with
    | some c, some c2 =>
      if is_word_boundary c c2 then some (some (i + 1)) else scanBoundaryDown s i
    | _, _ => none

/-- `fn get_next_word_pos(source: &str, index: usize) -> usize`.  The first
scan runs over `index..source.len().saturating_sub(1)`, the second over
`found+1..source.len()`; `none` models the panic of `unwrap` when a
character index exceeds the character count (which happens on multi-byte
buffers, since the ranges are in bytes but `chars().nth` counts characters). -/
def get_next_word_pos (s : List Char) (index : Nat) : Option Nat :=
  match scanBoundary s index (byteLen s - 1 - index) with
  | none => none
  | some none => some (byteLen s)
  | some (some b) =>
    match scanNonWs s (b + 1) (byteLen s - (b + 1)) with
    | none => none
    | some none => some (byteLen s)
    | some (some j) => some j

/-- `fn get_prev_word_pos(source: &str, index: usize) -> usize`.  The first
scan runs over `(1..index).rev()` (positions `index-1, ..., 1`), the second
over `(1..found).rev()`. -/
def get_prev_word_pos (s : List Char) (index : Nat) : Option Nat :=
  match scanNonWsDown s (index - 1) with
  | none => none
  | some none => some 0
  | some (some i) =>
    match scanBoundaryDown s (i - 1) with
    | none => none
    | some none => some 0
    | some (some j) => some j

/-- Split the buffer at byte offset `i`: `some (a, b)` with `s = a ++ b` and
`byteLen a = i` when `i` is a character boundary with `i ≤ byteLen s`,
`none` otherwise (where Rust's `String::insert` / `replace_range` panic). -/
def splitAtByte : List Char → Nat → Option (List Char × List Char)
  | s, 0 => some ([], s)
  | [], _ + 1 => none
  | c :: cs, i + 1 =>
    if i + 1 < c.utf8Size then none
    else
      match splitAtByte cs (i + 1 - c.utf8Size) with
      | none => none
      | some (a, b) => some (c :: a, b)

/-- `self.source.replace_range(lo..hi, "")`: delete the byte range
`[lo, hi)`; panics (`none`) unless `lo ≤ hi` and both ends are character
boundaries within the buffer. -/
def removeRange (s : List Char) (lo hi : Nat) : Option (List Char) :=
  if lo ≤ hi then
    match splitAtByte s lo with
    | none => none
    | some (a, rest) =>
      match splitAtByte rest (hi - lo) with
      | none => none
      | some (_, c) => some (a ++ c)
  else none

/-- The `loop { index += 1; if is_char_boundary(index) { break } }` of
`Cursor::right`, with explicit fuel (the loop runs at most `byteLen` steps
because the total byte length is always a boundary). -/
def findBoundaryUp (s : List Char) : Nat → Nat → Nat
  | 0, j => j
  | fuel + 1, j => if isCharBoundary s j then j else findBoundaryUp s fuel (j + 1)

/-- The `loop { index -= 1; if is_char_boundary(index) { break } }` of
`Cursor::left`, with explicit fuel (offset 0 is always a boundary). -/
def findBoundaryDown (s : List Char) : Nat → Nat → Nat
  | 0, j => j
  | fuel + 1, j => if isCharBoundary s j then j else findBoundaryDown s fuel (j - 1)

/-- `pub struct Cursor { source: String, index: usize }`. -/
structure Cursor where
  source : List Char
  index : Nat
  deriving DecidableEq, Repr

/-- `impl From<String> for Cursor`: initial index 0. -/
def Cursor.fromString (s : List Char) : Cursor := ⟨s, 0⟩

/-- `pub fn right(&mut self)`. -/
def Cursor.right (cur : Cursor) : Cursor :=
  if cur.index < byteLen cur.source then
    { cur with index := findBoundaryUp cur.source (byteLen cur.source) (cur.index + 1) }
  else cur

/-- `pub fn left(&mut self) -> bool`: the updated cursor and the return value. -/
def Cursor.left (cur : Cursor) : Cursor × Bool :=
  if 0 < cur.index then
    ({ cur with index := findBoundaryDown cur.source cur.index (cur.index - 1) }, true)
  else (cur, false)

/-- `pub fn next_word(&mut self)`. -/
def Cursor.next_word (cur : Cursor) : Option Cursor :=
  (get_next_word_pos cur.source cur.index).map fun n => { cur with index := n }

/-- `pub fn prev_word(&mut self)`. -/
def Cursor.prev_word (cur : Cursor) : Option Cursor :=
  (get_prev_word_pos cur.source cur.index).map fun n => { cur with index := n }

/-- `pub fn insert(&mut self, c: char)`: `self.source.insert(self.index, c);
self.index += c.len_utf8();`. -/
def Cursor.insert (cur : Cursor) (c : Char) : Option Cursor :=
  match splitAtByte cur.source cur.index with
  | none => none
  | some (a, b) => some ⟨a ++ c :: b, cur.index + c.utf8Size⟩

/-- `pub fn remove(&mut self) -> Option<char>`: the updated cursor and the
returned character; outer `none` is the panic of `String::remove` at a
non-boundary offset. -/
def Cursor.remove (cur : Cursor) : Option (Cursor × Option Char) :=
  if cur.index < byteLen cur.source then
    match splitAtByte cur.source cur.index with
    | some (a, c :: b) => some (⟨a ++ b, cur.index⟩, some c)
    | _ => none
  else some (cur, none)

/-- `pub fn remove_next_word(&mut self)`. -/
def Cursor.remove_next_word (cur : Cursor) : Option Cursor :=
  match get_next_word_pos cur.source cur.index with
  | none => none
  | some n =>
    match removeRange cur.source cur.index n with
    | none => none
    | some s => some ⟨s, cur.index⟩

/-- `pub fn remove_prev_word(&mut self)`. -/
def Cursor.remove_prev_word (cur : Cursor) : Option Cursor :=
  match get_prev_word_pos cur.source cur.index with
  | none => none
  | some n =>
    match removeRange cur.source n cur.index with
    | none => none
    | some s => some ⟨s, n⟩

/-- `pub fn back(&mut self) -> Option<char>`. -/
def Cursor.back (cur : Cursor) : Option (Cursor × Option Char) :=
  match cur.left with
  | (c1, true) => c1.remove
  | (_, false) => some (cur, none)

/-- `pub fn clear(&mut self)`. -/
def Cursor.clear (_cur : Cursor) : Cursor := ⟨[], 0⟩

/-- `pub fn end(&mut self)` (`end` is a Lean keyword, hence the underscore). -/
def Cursor.end_ (cur : Cursor) : Cursor := ⟨cur.source, byteLen cur.source⟩

/-- `pub fn start(&mut self)`. -/
def Cursor.start (cur : Cursor) : Cursor := ⟨cur.source, 0⟩

/-- One public operation of the command surface. -/
inductive Op where
  | right | left | next_word | prev_word
  | insert (c : Char) | remove | remove_next_word | remove_prev_word
  | back | clear | end_ | start
  deriving DecidableEq, Repr

/-- Apply one operation; `none` models a panic. -/
def applyOp : Op → Cursor → Option Cursor
  | .right, cur => some cur.right
  | .left, cur => some (cur.left).1
  | .next_word, cur => cur.next_word
  | .prev_word, cur => cur.prev_word
  | .insert c, cur => cur.insert c
  | .remove, cur => (cur.remove).map Prod.fst
  | .remove_next_word, cur => cur.remove_next_word
  | .remove_prev_word, cur => cur.remove_prev_word
  | .back, cur => (cur.back).map Prod.fst
  | .clear, cur => some cur.clear
  | .end_, cur => some cur.end_
  | .start, cur => some cur.start

/-- Run a finite sequence of operations. -/
def run : List Op → Cursor → Option Cursor
  | [], cur => some cur
  | op :: ops, cur => (applyOp op cur).bind (run ops)

/-- The position invariant of the spec: `0 ≤ position ≤ byte_length(buffer)`
on a character boundary (`isCharBoundary` already forces `index ≤ byteLen`). -/
def cursorInv (cur : Cursor) : Bool :=
  isCharBoundary cur.source cur.index

/-! ## Helper lemmas about byte offsets, boundaries and splitting -/

theorem byteLen_append (a b : List Char) :
    byteLen (a ++ b) = byteLen a + byteLen b := by
  induction a with
  | nil => simp [byteLen]
  | cons c a ih => simp [byteLen, ih]; omega

theorem isCharBoundary_zero (s : List Char) : isCharBoundary s 0 = true := by
  cases s <;> rfl

theorem isCharBoundary_cons (c : Char) (cs : List Char) (i : Nat) :
    isCharBoundary (c :: cs) i =
      if i = 0 then true
      else if i < c.utf8Size then false
      else isCharBoundary cs (i - c.utf8Size) := by
  cases i with
  | zero => simp [isCharBoundary]
  | succ n => simp [isCharBoundary]

theorem isCharBoundary_append (a l : List Char) (k : Nat) :
    isCharBoundary (a ++ l) (byteLen a + k) = isCharBoundary l k := by
  induction a with
  | nil => simp [byteLen]
  | cons c a ih =>
    have hpos := Char.utf8Size_pos c
    rw [List.cons_append, isCharBoundary_cons]
    have h1 : byteLen (c :: a) + k = c.utf8Size + (byteLen a + k) := by
      simp [byteLen]; omega
    rw [h1, if_neg (by omega), if_neg (by omega)]
    have h2 : c.utf8Size + (byteLen a + k) - c.utf8Size = byteLen a + k := by omega
    rw [h2]; exact ih

theorem isCharBoundary_inside (c : Char) (b : List Char) (k : Nat)
    (h1 : 0 < k) (h2 : k < c.utf8Size) : isCharBoundary (c :: b) k = false := by
  rw [isCharBoundary_cons, if_neg (by omega), if_pos h2]

theorem splitAtByte_zero (s : List Char) : splitAtByte s 0 = some ([], s) := by
  cases s <;> rfl

theorem splitAtByte_cons_ne (c : Char) (cs : List Char) (i : Nat) (h : i ≠ 0) :
    splitAtByte (c :: cs) i =
      if i < c.utf8Size then none
      else
        match splitAtByte cs (i - c.utf8Size) with
        | none => none
        | some (a, b) => some (c :: a, b) := by
  cases i with
  | zero => exact absurd rfl h
  | succ n => rfl

theorem splitAtByte_append (a l : List Char) :
    splitAtByte (a ++ l) (byteLen a) = some (a, l) := by
  induction a with
  | nil => simpa [byteLen] using splitAtByte_zero l
  | cons c a ih =>
    have hpos := Char.utf8Size_pos c
    have h0 : byteLen (c :: a) = c.utf8Size + byteLen a := rfl
    rw [List.cons_append, splitAtByte_cons_ne _ _ _ (by omega), if_neg (by omega)]
    have h2 : byteLen (c :: a) - c.utf8Size = byteLen a := by omega
    rw [h2, ih]

theorem splitAtByte_sound (s : List Char) (i : Nat) (a b : List Char)
    (h : splitAtByte s i = some (a, b)) : s = a ++ b ∧ byteLen a = i := by
  induction s generalizing i a b with
  | nil =>
    cases i with
    | zero =>
      rw [splitAtByte_zero] at h
      obtain ⟨rfl, rfl⟩ : a = [] ∧ b = [] := by
        constructor <;> { injection h with h'; cases h'; rfl }
      exact ⟨rfl, rfl⟩
    | succ n => exact absurd h (by simp [splitAtByte])
  | cons c cs ih =>
    cases i with
    | zero =>
      rw [splitAtByte_zero] at h
      obtain ⟨rfl, rfl⟩ : a = [] ∧ b = c :: cs := by
        constructor <;> { injection h with h'; cases h'; rfl }
      exact ⟨rfl, rfl⟩
    | succ n =>
      rw [splitAtByte_cons_ne _ _ _ (Nat.succ_ne_zero n)] at h
      by_cases hlt : n + 1 < c.utf8Size
      · rw [if_pos hlt] at h; exact absurd h (by simp)
      · rw [if_neg hlt] at h
        cases hsp : splitAtByte cs (n + 1 - c.utf8Size) with
        | none => rw [hsp] at h; exact absurd h (by simp)
        | some p =>
          obtain ⟨a', b'⟩ := p
          rw [hsp] at h
          obtain ⟨rfl, rfl⟩ : a = c :: a' ∧ b = b' := by
            constructor <;> { injection h with h'; cases h'; rfl }
          obtain ⟨hcs, hlen⟩ := ih _ _ _ hsp
          refine ⟨by rw [hcs]; rfl, ?_⟩
          have : byteLen (c :: a') = c.utf8Size + byteLen a' := rfl
          omega

theorem splitAtByte_of_boundary (s : List Char) (i : Nat)
    (h : isCharBoundary s i = true) : ∃ p, splitAtByte s i = some p := by
  induction s generalizing i with
  | nil =>
    cases i with
    | zero => exact ⟨([], []), splitAtByte_zero []⟩
    | succ n => simp [isCharBoundary] at h
  | cons c cs ih =>
    cases i with
    | zero => exact ⟨([], c :: cs), splitAtByte_zero _⟩
    | succ n =>
      rw [isCharBoundary_cons, if_neg (Nat.succ_ne_zero n)] at h
      by_cases hlt : n + 1 < c.utf8Size
      · rw [if_pos hlt] at h; exact absurd h (by simp)
      · rw [if_neg hlt] at h
        obtain ⟨⟨a, b⟩, hp⟩ := ih _ h
        exact ⟨(c :: a, b), by
          rw [splitAtByte_cons_ne _ _ _ (Nat.succ_ne_zero n), if_neg hlt, hp]⟩

theorem findBoundaryDown_le (s : List Char) (fuel j : Nat) :
    findBoundaryDown s fuel j ≤ j := by
  induction fuel generalizing j with
  | zero => exact Nat.le_refl j
  | succ f ih =>
    unfold findBoundaryDown
    split
    · exact Nat.le_refl j
    · exact Nat.le_trans (ih (j - 1)) (Nat.sub_le j 1)

theorem findBoundaryDown_eq (s : List Char) (t : Nat)
    (ht : isCharBoundary s t = true) :
    ∀ fuel j, t ≤ j → j - t < fuel →
      (∀ k, t < k → k ≤ j → isCharBoundary s k = false) →
      findBoundaryDown s fuel j = t := by
  intro fuel
  induction fuel with
  | zero => intro j h1 h2 _; omega
  | succ f ih =>
    intro j h1 h2 hk
    by_cases hj : j = t
    · subst hj; unfold findBoundaryDown; rw [if_pos ht]
    · have hlt : t < j := by omega
      unfold findBoundaryDown
      rw [if_neg (by rw [hk j hlt (Nat.le_refl j)]; simp)]
      exact ih (j - 1) (by omega) (by omega) (fun k hk1 hk2 => hk k hk1 (by omega))

theorem findBoundaryUp_eq (s : List Char) (t : Nat)
    (ht : isCharBoundary s t = true) :
    ∀ fuel j, j ≤ t → t - j < fuel →
      (∀ k, j ≤ k → k < t → isCharBoundary s k = false) →
      findBoundaryUp s fuel j = t := by
  intro fuel
  induction fuel with
  | zero => intro j h1 h2 _; omega
  | succ f ih =>
    intro j h1 h2 hk
    by_cases hj : j = t
    · subst hj; unfold findBoundaryUp; rw [if_pos ht]
    · have hlt : j < t := by omega
      unfold findBoundaryUp
      rw [if_neg (by rw [hk j (Nat.le_refl j) hlt]; simp)]
      exact ih (j + 1) (by omega) (by omega) (fun k hk1 hk2 => hk k (by omega) hk2)

/-! ## Theorems -/

/-- The word-navigation fixture text of the spec and the source's tests. -/
def fixture : List Char := String.toList "   aaa   ((()))bbb   ((()))   "

/-- C3: on `"   aaa   ((()))bbb   ((()))   "`, `next_word_position` maps
0 ↦ 3, 3 ↦ 9, 9 ↦ 15, 15 ↦ 21, 21 ↦ 30, and `prev_word_position` maps
30 ↦ 21, 21 ↦ 15, 15 ↦ 9, 9 ↦ 3, 3 ↦ 0. -/
theorem fixture_word_positions :
    get_next_word_pos fixture 0 = some 3 ∧
    get_next_word_pos fixture 3 = some 9 ∧
    get_next_word_pos fixture 9 = some 15 ∧
    get_next_word_pos fixture 15 = some 21 ∧
    get_next_word_pos fixture 21 = some 30 ∧
    get_prev_word_pos fixture 30 = some 21 ∧
    get_prev_word_pos fixture 21 = some 15 ∧
    get_prev_word_pos fixture 15 = some 9 ∧
    get_prev_word_pos fixture 9 = some 3 ∧
    get_prev_word_pos fixture 3 = some 0 := by decide

/-- C4: `is_word_boundary c next` holds iff exactly one of the two characters
is whitespace, or exactly one of the two belongs to the separator set; each
of the two conditions independently suffices. -/
theorem is_word_boundary_iff (c next_c : Char) :
    is_word_boundary c next_c = true ↔
      (rustIsWhitespace c ≠ rustIsWhitespace next_c ∨
       WORD_SEPARATORS.contains c ≠ WORD_SEPARATORS.contains next_c) := by
  unfold is_word_boundary
  cases hw : rustIsWhitespace c <;> cases hw2 : rustIsWhitespace next_c <;>
    cases hs : WORD_SEPARATORS.contains c <;>
    cases hs2 : WORD_SEPARATORS.contains next_c <;> simp

/-- C9: on the empty string both word-position scans complete and return 0. -/
theorem word_pos_empty :
    get_next_word_pos [] 0 = some 0 ∧ get_prev_word_pos [] 0 = some 0 := by decide

/-- C1 (failing input): starting from the buffer `"öö a"` at position 0 —
a state reachable by construction from that initial string — the single
public operation `next_word` completes and leaves the cursor at byte offset
3, which is strictly inside the second two-byte character `'ö'`: the
claimed boundary invariant does not survive every operation sequence. -/
theorem next_word_violates_boundary_invariant :
    run [Op.next_word] (Cursor.fromString (String.toList "öö a")) =
      some ⟨String.toList "öö a", 3⟩ ∧
    isCharBoundary (String.toList "öö a") 3 = false := by decide

/-- C2 (failing input): the cursor over `"ö"` at position 0 satisfies the
position invariant, yet `next_word` panics (the model's `none`): inside
`get_next_word_pos` the scan range `0..len().saturating_sub(1)` is in bytes
(`0..1`) while `chars().nth(1)` counts characters, so `unwrap` hits `None`. -/
theorem next_word_panics_on_multibyte :
    cursorInv ⟨String.toList "ö", 0⟩ = true ∧
    Cursor.next_word ⟨String.toList "ö", 0⟩ = none := by decide

/-- C5: from any state satisfying the position invariant, `insert c`
completes, and `back` then returns `some c` and restores both the buffer and
the position to their pre-insert values. -/
theorem insert_back_inverse (cur : Cursor) (c : Char)
    (h : cursorInv cur = true) :
    ∃ cur1, cur.insert c = some cur1 ∧ cur1.back = some (cur, some c) := by
  replace h : isCharBoundary cur.source cur.index = true := h
  obtain ⟨⟨a, b⟩, hsp⟩ := splitAtByte_of_boundary _ _ h
  obtain ⟨hs, hlen⟩ := splitAtByte_sound _ _ _ _ hsp
  have hpos := Char.utf8Size_pos c
  refine ⟨⟨a ++ c :: b, cur.index + c.utf8Size⟩, ?_, ?_⟩
  · unfold Cursor.insert
    rw [hsp]
  · have hcb : byteLen (c :: b) = c.utf8Size + byteLen b := rfl
    have hblen : byteLen (a ++ c :: b) = cur.index + c.utf8Size + byteLen b := by
      rw [byteLen_append]; omega
    have hbt : isCharBoundary (a ++ c :: b) cur.index = true := by
      have h1 := isCharBoundary_append a (c :: b) 0
      rw [Nat.add_zero, hlen] at h1
      rw [h1]; exact isCharBoundary_zero _
    have hnb : ∀ k, cur.index < k → k < cur.index + c.utf8Size →
        isCharBoundary (a ++ c :: b) k = false := by
      intro k hk1 hk2
      have hk : k = byteLen a + (k - cur.index) := by omega
      rw [hk, isCharBoundary_append]
      exact isCharBoundary_inside _ _ _ (by omega) (by omega)
    have hleft : Cursor.left ⟨a ++ c :: b, cur.index + c.utf8Size⟩ =
        (⟨a ++ c :: b, cur.index⟩, true) := by
      unfold Cursor.left
      rw [if_pos (by simp only []; omega)]
      have hfd : findBoundaryDown (a ++ c :: b) (cur.index + c.utf8Size)
          (cur.index + c.utf8Size - 1) = cur.index :=
        findBoundaryDown_eq _ _ hbt _ _ (by omega) (by omega)
          (fun k hk1 hk2 => hnb k hk1 (by omega))
      simp only [hfd]
    have hsp2 : splitAtByte (a ++ c :: b) cur.index = some (a, c :: b) := by
      rw [← hlen]; exact splitAtByte_append a (c :: b)
    have hrm : Cursor.remove ⟨a ++ c :: b, cur.index⟩ =
        some (⟨a ++ b, cur.index⟩, some c) := by
      unfold Cursor.remove
      rw [if_pos (by simp only []; rw [hblen]; omega)]
      rw [hsp2]
    unfold Cursor.back
    rw [hleft]
    show Cursor.remove ⟨a ++ c :: b, cur.index⟩ = some (cur, some c)
    rw [hrm, ← hs]

/-- C6: from any state satisfying the position invariant whose position is
strictly below the byte length, `right` followed by `left` restores the
original position, and neither operation touches the buffer. -/
theorem right_left_roundtrip (cur : Cursor) (h : cursorInv cur = true)
    (hlt : cur.index < byteLen cur.source) :
    ((cur.right).left).1 = cur := by
  replace h : isCharBoundary cur.source cur.index = true := h
  obtain ⟨⟨a, b⟩, hsp⟩ := splitAtByte_of_boundary _ _ h
  obtain ⟨hs, hlen⟩ := splitAtByte_sound _ _ _ _ hsp
  cases b with
  | nil =>
    exfalso
    rw [hs, byteLen_append] at hlt
    simp [byteLen] at hlt
    omega
  | cons c b2 =>
    have hpos := Char.utf8Size_pos c
    have hcb : byteLen (c :: b2) = c.utf8Size + byteLen b2 := rfl
    have hblen : byteLen cur.source = cur.index + c.utf8Size + byteLen b2 := by
      rw [hs, byteLen_append]; omega
    have hbt2 : isCharBoundary cur.source (cur.index + c.utf8Size) = true := by
      rw [hs]
      have h1 : cur.index + c.utf8Size = byteLen a + c.utf8Size := by omega
      rw [h1, isCharBoundary_append, isCharBoundary_cons,
        if_neg (by omega), if_neg (by omega)]
      have h2 : c.utf8Size - c.utf8Size = 0 := by omega
      rw [h2]; exact isCharBoundary_zero _
    have hnb : ∀ k, cur.index < k → k < cur.index + c.utf8Size →
        isCharBoundary cur.source k = false := by
      intro k hk1 hk2
      rw [hs]
      have hk : k = byteLen a + (k - cur.index) := by omega
      rw [hk, isCharBoundary_append]
      exact isCharBoundary_inside _ _ _ (by omega) (by omega)
    have hright : cur.right = ⟨cur.source, cur.index + c.utf8Size⟩ := by
      unfold Cursor.right
      rw [if_pos hlt]
      have hfu : findBoundaryUp cur.source (byteLen cur.source) (cur.index + 1) =
          cur.index + c.utf8Size :=
        findBoundaryUp_eq _ _ hbt2 _ _ (by omega) (by omega)
          (fun k hk1 hk2 => hnb k (by omega) hk2)
      simp only [hfu]
    rw [hright]
    unfold Cursor.left
    rw [if_pos (by simp only []; omega)]
    have hfd : findBoundaryDown cur.source (cur.index + c.utf8Size)
        (cur.index + c.utf8Size - 1) = cur.index :=
      findBoundaryDown_eq _ _ h _ _ (by omega) (by omega)
        (fun k hk1 hk2 => hnb k hk1 (by omega))
    simp only [hfd]

/-- C7: at the end of the buffer `right` is a no-op and stays one under
iteration; at position 0 `left` returns `false` and changes nothing, also
under iteration; and `left` returns `true` exactly when it moved the
position. -/
theorem movement_edge_behavior (cur : Cursor) :
    (cur.index = byteLen cur.source → ∀ k, Cursor.right^[k] cur = cur) ∧
    (cur.index = 0 → Cursor.left cur = (cur, false) ∧
      ∀ k, (fun st : Cursor => (Cursor.left st).1)^[k] cur = cur) ∧
    ((Cursor.left cur).2 = true ↔ (Cursor.left cur).1.index ≠ cur.index) := by
  refine ⟨?_, ?_, ?_⟩
  · intro he k
    have h1 : cur.right = cur := by
      unfold Cursor.right; rw [if_neg (by omega)]
    induction k with
    | zero => rfl
    | succ n ih => rw [Function.iterate_succ_apply, h1, ih]
  · intro h0
    have h1 : Cursor.left cur = (cur, false) := by
      unfold Cursor.left; rw [if_neg (by omega)]
    refine ⟨h1, fun k => ?_⟩
    induction k with
    | zero => rfl
    | succ n ih => rw [Function.iterate_succ_apply]; simp only [h1]; exact ih
  · by_cases h0 : 0 < cur.index
    · have hle := findBoundaryDown_le cur.source cur.index (cur.index - 1)
      unfold Cursor.left
      rw [if_pos h0]
      simp only [ne_eq]
      constructor
      · intro _; omega
      · intro _; trivial
    · have h1 : Cursor.left cur = (cur, false) := by
        unfold Cursor.left; rw [if_neg h0]
      rw [h1]
      simp

/-- C8 (failing input for the claim as stated): the state over `"ö"` at
position 0 satisfies the position invariant, yet `remove_next_word` panics
inside `get_next_word_pos` instead of removing the byte range
`[position, next_word_position)`. -/
theorem remove_next_word_panics :
    cursorInv ⟨String.toList "ö", 0⟩ = true ∧
    Cursor.remove_next_word ⟨String.toList "ö", 0⟩ = none := by decide

/-- C8 (amended): whenever `remove_next_word` completes on a state satisfying
the position invariant, it removes exactly the half-open byte range
`[position, next_word_position)`, leaves the position unchanged, and leaves
the buffer content before `position` and at or after `next_word_position`
unchanged (the buffer decomposes as `a ++ b ++ c` with `byteLen a = position`
and `byteLen (a ++ b) = next_word_position`, and only `b` is dropped). -/
theorem remove_next_word_frame (cur cur' : Cursor)
    (_hinv : cursorInv cur = true)
    (hc : cur.remove_next_word = some cur') :
    ∃ n a b c, get_next_word_pos cur.source cur.index = some n ∧
      cur.source = a ++ (b ++ c) ∧ byteLen a = cur.index ∧
      byteLen (a ++ b) = n ∧
      cur'.source = a ++ c ∧ cur'.index = cur.index := by
  unfold Cursor.remove_next_word at hc
  split at hc
  · exact Option.noConfusion hc
  · rename_i n hn
    split at hc
    · exact Option.noConfusion hc
    · rename_i t hr
      obtain rfl : cur' = ⟨t, cur.index⟩ := by
        injection hc with h'; exact h'.symm
      unfold removeRange at hr
      split at hr
      · rename_i hle
        split at hr
        · exact Option.noConfusion hr
        · rename_i a rest hsp1
          split at hr
          · exact Option.noConfusion hr
          · rename_i b c hsp2
            obtain rfl : t = a ++ c := by
              injection hr with h'; exact h'.symm
            obtain ⟨hs1, hl1⟩ := splitAtByte_sound _ _ _ _ hsp1
            obtain ⟨hs2, hl2⟩ := splitAtByte_sound _ _ _ _ hsp2
            refine ⟨n, a, b, c, hn, ?_, hl1, ?_, rfl, rfl⟩
            · rw [hs1, hs2]
            · rw [byteLen_append]; omega
      · exact Option.noConfusion hr

/-! ## Bounds of the word-position scans -/

theorem scanBoundary_bounds (s : List Char) :
    ∀ n lo b, scanBoundary s lo n = some (some b) → lo ≤ b ∧ b < lo + n := by
  intro n
  induction n with
  | zero => intro lo b h; simp [scanBoundary] at h
  | succ m ih =>
    intro lo b h
    unfold scanBoundary at h
    split at h
    · split at h
      · obtain rfl : lo = b := by simpa using h
        omega
      · obtain ⟨h1, h2⟩ := ih (lo + 1) b h
        omega
    · exact Option.noConfusion h

theorem scanNonWs_bounds (s : List Char) :
    ∀ n lo j, scanNonWs s lo n = some (some j) → lo ≤ j ∧ j < lo + n := by
  intro n
  induction n with
  | zero => intro lo j h; simp [scanNonWs] at h
  | succ m ih =>
    intro lo j h
    unfold scanNonWs at h
    split at h
    · split at h
      · obtain ⟨h1, h2⟩ := ih (lo + 1) j h
        omega
      · obtain rfl : lo = j := by simpa using h
        omega
    · exact Option.noConfusion h

theorem scanNonWsDown_bounds (s : List Char) :
    ∀ j i, scanNonWsDown s j = some (some i) → 1 ≤ i ∧ i ≤ j := by
  intro j
  induction j with
  | zero => intro i h; simp [scanNonWsDown] at h
  | succ m ih =>
    intro i h
    unfold scanNonWsDown at h
    split at h
    · split at h
      · obtain ⟨h1, h2⟩ := ih i h
        omega
      · obtain rfl : m + 1 = i := by simpa using h
        omega
    · exact Option.noConfusion h

theorem scanBoundaryDown_bounds (s : List Char) :
    ∀ j i, scanBoundaryDown s j = some (some i) → 1 ≤ i ∧ i ≤ j := by
  intro j
  induction j with
  | zero => intro i h; simp [scanBoundaryDown] at h
  | succ m ih =>
    intro i h
    unfold scanBoundaryDown at h
    split at h
    · split at h
      · obtain rfl : m + 1 = i := by simpa using h
        omega
      · obtain ⟨h1, h2⟩ := ih i h
        omega
    · exact Option.noConfusion h

/-- C10: whenever the scans complete on an index within the buffer, the
word-position functions make bounded progress in the right direction —
`i ≤ get_next_word_pos s i ≤ byteLen s` and `get_prev_word_pos s i ≤ i` —
and at the buffer ends they complete and are exact no-ops. -/
theorem word_pos_bounds (s : List Char) (i : Nat) (h : i ≤ byteLen s) :
    (∀ n, get_next_word_pos s i = some n → i ≤ n ∧ n ≤ byteLen s) ∧
    (∀ p, get_prev_word_pos s i = some p → p ≤ i) ∧
    get_next_word_pos s (byteLen s) = some (byteLen s) ∧
    get_prev_word_pos s 0 = some 0 := by
  refine ⟨?_, ?_, ?_, ?_⟩
  · intro n hn
    unfold get_next_word_pos at hn
    split at hn
    · exact Option.noConfusion hn
    · obtain rfl : byteLen s = n := by simpa using hn
      omega
    · rename_i b heq
      obtain ⟨hb1, hb2⟩ := scanBoundary_bounds s _ _ _ heq
      split at hn
      · exact Option.noConfusion hn
      · obtain rfl : byteLen s = n := by simpa using hn
        omega
      · rename_i j heq2
        obtain ⟨hj1, hj2⟩ := scanNonWs_bounds s _ _ _ heq2
        obtain rfl : j = n := by simpa using hn
        omega
  · intro p hp
    unfold get_prev_word_pos at hp
    split at hp
    · exact Option.noConfusion hp
    · obtain rfl : (0 : Nat) = p := by simpa using hp
      omega
    · rename_i i' heq
      obtain ⟨hi1, hi2⟩ := scanNonWsDown_bounds s _ _ heq
      split at hp
      · exact Option.noConfusion hp
      · obtain rfl : (0 : Nat) = p := by simpa using hp
        omega
      · rename_i j heq2
        obtain ⟨hj1, hj2⟩ := scanBoundaryDown_bounds s _ _ heq2
        obtain rfl : j = p := by simpa using hp
        omega
  · unfold get_next_word_pos
    have h0 : byteLen s - 1 - byteLen s = 0 := by omega
    rw [h0]
    rfl
  · rfl

/-! ## Witnesses -/

/-- Witness for C5 at the concrete state `("ab", 1)` and character `'x'`. -/
theorem insert_back_inverse_witness :
    cursorInv ⟨String.toList "ab", 1⟩ = true ∧
    ∃ cur1, Cursor.insert ⟨String.toList "ab", 1⟩ 'x' = some cur1 ∧
      cur1.back = some (⟨String.toList "ab", 1⟩, some 'x') :=
  ⟨by decide, insert_back_inverse ⟨String.toList "ab", 1⟩ 'x' (by decide)⟩

/-- Witness for C6 at the concrete state `("ab", 0)`. -/
theorem right_left_roundtrip_witness :
    cursorInv ⟨String.toList "ab", 0⟩ = true ∧
    0 < byteLen (String.toList "ab") ∧
    (((Cursor.mk (String.toList "ab") 0).right).left).1 =
      Cursor.mk (String.toList "ab") 0 :=
  ⟨by decide, by decide,
   right_left_roundtrip ⟨String.toList "ab", 0⟩ (by decide) (by decide)⟩

/-- Witness for C7 at the concrete states `("ab", 2)`, `("ab", 0)` and
`("ab", 1)`. -/
theorem movement_edge_witness :
    Cursor.right^[2] ⟨String.toList "ab", 2⟩ = ⟨String.toList "ab", 2⟩ ∧
    Cursor.left ⟨String.toList "ab", 0⟩ = (⟨String.toList "ab", 0⟩, false) ∧
    ((Cursor.left ⟨String.toList "ab", 1⟩).2 = true ↔
      (Cursor.left ⟨String.toList "ab", 1⟩).1.index ≠
        (Cursor.mk (String.toList "ab") 1).index) :=
  ⟨(movement_edge_behavior ⟨String.toList "ab", 2⟩).1 (by decide) 2,
   ((movement_edge_behavior ⟨String.toList "ab", 0⟩).2.1 rfl).1,
   (movement_edge_behavior ⟨String.toList "ab", 1⟩).2.2⟩

/-- Witness for C8 (amended) at the concrete state `("ab cd", 0)`, where
`remove_next_word` completes and removes the bytes `[0, 3)` (`"ab "`). -/
theorem remove_next_word_frame_witness :
    cursorInv ⟨String.toList "ab cd", 0⟩ = true ∧
    Cursor.remove_next_word ⟨String.toList "ab cd", 0⟩ =
      some ⟨String.toList "cd", 0⟩ ∧
    ∃ n a b c,
      get_next_word_pos (String.toList "ab cd") 0 = some n ∧
      String.toList "ab cd" = a ++ (b ++ c) ∧ byteLen a = 0 ∧
      byteLen (a ++ b) = n ∧
      String.toList "cd" = a ++ c ∧ (0 : Nat) = 0 :=
  ⟨by decide, by decide,
   remove_next_word_frame ⟨String.toList "ab cd", 0⟩ ⟨String.toList "cd", 0⟩
     (by decide) (by decide)⟩

/-- Witness for C10 at the concrete text `"a b"` and index 1. -/
theorem word_pos_bounds_witness :
    (1 ≤ 2 ∧ 2 ≤ byteLen (String.toList "a b")) ∧
    get_next_word_pos (String.toList "a b") (byteLen (String.toList "a b")) =
      some (byteLen (String.toList "a b")) ∧
    get_prev_word_pos (String.toList "a b") 0 = some 0 :=
  ⟨(word_pos_bounds (String.toList "a b") 1 (by decide)).1 2 (by decide),
   (word_pos_bounds (String.toList "a b") 1 (by decide)).2.2.1,
   (word_pos_bounds (String.toList "a b") 1 (by decide)).2.2.2⟩

end Atuin
